import Mathlib

/-
  Verification of convert_mediawikixml_to_markdown.py.

  Strings are modelled as `List Char` (Python `str` is a sequence of code
  points; all operations used by the program are code-point-wise).
  Each definition below embeds one function (or one contiguous slice) of the
  Python source, keeping the source's names where possible.
-/

namespace MwConvert

/-- Python `s.replace(c, r)` for single-character `c`, `r`: a pointwise map. -/
def replaceChar (c r : Char) (s : List Char) : List Char :=
  s.map fun x => if x = c then r else x

/-- Python `c in s` for a single character. -/
def containsChar (c : Char) (s : List Char) : Bool :=
  s.any fun x => x == c

/-- Boolean string-prefix test (Python `s.startswith(p)` / `re.match("^...")`). -/
def startsWith : List Char → List Char → Bool
  | [], _ => true
  | _ :: _, [] => false
  | p :: ps, c :: cs => p == c && startsWith ps cs

/-- Python `s.strip()`: drop whitespace from both ends. -/
def strip (s : List Char) : List Char :=
  ((s.dropWhile Char.isWhitespace).reverse.dropWhile Char.isWhitespace).reverse

/-- Python `s.split(sep)` for a single-character separator (always non-empty result). -/
def splitChar (sep : Char) : List Char → List (List Char)
  | [] => [[]]
  | c :: rest =>
    match splitChar sep rest with
    | [] => [[]]
    | h :: t => if c = sep then [] :: h :: t else (c :: h) :: t

/-- Python `sep.join(l)` for a single-character separator. -/
def joinChar (sep : Char) : List (List Char) → List Char
  | [] => []
  | [x] => x
  | x :: y :: rest => x ++ sep :: joinChar sep (y :: rest)

/-- Python `s.split(sep, 1)` when `sep` occurs in `s`: split at first occurrence. -/
def splitFirst (sep : Char) : List Char → List Char × List Char
  | [] => ([], [])
  | c :: rest =>
    if c = sep then ([], rest)
    else
      let p := splitFirst sep rest
      (c :: p.1, p.2)

/-- Python `p in s` substring test. -/
def containsSubstr (p : List Char) : List Char → Bool
  | [] => startsWith p []
  | c :: rest => startsWith p (c :: rest) || containsSubstr p rest

/-- Fuel-driven scanner for Python `s.replace(pat, rep)` / literal `re.sub`:
replace non-overlapping occurrences, leftmost first, never rescanning the
replacement. Intended to be run with `fuel = s.length` and a non-empty `pat`. -/
def replaceAllFuel (pat rep : List Char) : Nat → List Char → List Char
  | 0, s => s
  | _ + 1, [] => []
  | fuel + 1, c :: rest =>
    if startsWith pat (c :: rest) then
      rep ++ replaceAllFuel pat rep fuel (rest.drop (pat.length - 1))
    else
      c :: replaceAllFuel pat rep fuel rest

/-- Python `s.replace(pat, rep)` (also literal `re.sub(pat, rep, s)`) for non-empty `pat`. -/
def replaceAll (pat rep s : List Char) : List Char :=
  if pat.isEmpty then s else replaceAllFuel pat rep s.length s

/-- Python `os.path.join(a, b)` on a POSIX filesystem (two arguments). -/
def pathJoin (a b : List Char) : List Char :=
  if b.head? = some '/' then b
  else if a = [] then b
  else if a.getLast? = some '/' then a ++ b
  else a ++ '/' :: b

/-- Python string comparison `a <= b`: lexicographic on code points,
a proper prefix is smaller. -/
def strLe : List Char → List Char → Bool
  | [], _ => true
  | _ :: _, [] => false
  | a :: as, b :: bs => if a < b then true else if b < a then false else strLe as bs

/-! ## Path Resolver: `Convert.retrieve_file_info` (source lines 393-422) -/

/-- The `invalid_chars` table of `retrieve_file_info`, in source order. -/
def invalid_chars : List (Char × Char) :=
  [(':', '_'), ('/', '_'), ('*', '_'), ('?', '_'), ('<', '_'),
   ('>', '_'), ('|', '_'), ('\\', '_'), ('\"', '_')]

/-- The sanitization loop of `retrieve_file_info`:
`for char, replacement in invalid_chars.items(): title = title.replace(char, replacement)`. -/
def sanitize_title (t : List Char) : List Char :=
  invalid_chars.foldl (fun acc p => replaceChar p.1 p.2 acc) t

/-- The dict returned by `retrieve_file_info`. `directory` is already joined
with the output root, exactly as in the source. -/
structure FileMeta where
  directory : List Char
  filename : List Char
  title : List Char
  url : List Char
  deriving DecidableEq, Repr

/-- Embeds `Convert.retrieve_file_info` (lines 393-422). Besides the returned
dict, the second component records the side effect on `self.directory_list`
(the relative directories appended during this call). -/
def retrieve_file_info (output title : List Char) : FileMeta × List (List Char) :=
  let title := sanitize_title title
  let url := replaceChar ' ' '_' title
  let filename := url
  let directory : List Char := []
  if containsChar '/' url then
    let parts := splitChar '/' url
    let directory := joinChar '/' parts.dropLast
    let filename := parts.getLastD []
    ({ directory := pathJoin output directory, filename := filename,
       title := title, url := url }, [directory])
  else
    ({ directory := pathJoin output directory, filename := filename,
       title := title, url := url }, [])

/-- Embeds the path construction of `Convert.save_file` (line 382):
`os.path.join(directory, f"{filename}.md")`. -/
def save_path (m : FileMeta) : List Char :=
  pathJoin m.directory (m.filename ++ ".md".data)

/-- Embeds `Convert.get_metadata` (lines 430-433). -/
def get_metadata (addmeta : Bool) (m : FileMeta) : List Char :=
  if addmeta then
    "---\ntitle: ".data ++ m.title ++ "\npermalink: /".data ++ m.url ++ "/\n---\n\n".data
  else []

/-- Embeds `Convert.rename_files` (lines 463-468): the list of
`(source, destination)` renames the pass attempts (one per recorded
directory; the pass only acts when flatten is off and indexes is on). The
`os.path.exists` guard is a filesystem effect, so the model returns the
candidate renames. -/
def rename_files (flatten indexes : Bool) (output : List Char)
    (directory_list : List (List Char)) : List (List Char × List Char) :=
  if !flatten && indexes then
    directory_list.map fun d =>
      (pathJoin output (d ++ ".md".data), pathJoin (pathJoin output d) ("index.md".data))
  else []

/-! ## Basic lemmas about the helpers -/

theorem mem_replaceChar {x c r : Char} {s : List Char}
    (h : x ∈ replaceChar c r s) : x = r ∨ x ∈ s := by
  simp only [replaceChar, List.mem_map] at h
  obtain ⟨a, ha, hx⟩ := h
  by_cases hac : a = c
  · left; rw [if_pos hac] at hx; exact hx.symm
  · right; rw [if_neg hac] at hx; exact hx ▸ ha

theorem not_mem_replaceChar {c r : Char} (hcr : c ≠ r) (s : List Char) :
    c ∉ replaceChar c r s := by
  intro h
  simp only [replaceChar, List.mem_map] at h
  obtain ⟨a, _, hx⟩ := h
  by_cases hac : a = c
  · rw [if_pos hac] at hx; exact hcr hx.symm
  · rw [if_neg hac] at hx; exact hac hx

theorem slash_pres (c : Char) {s : List Char} (h : '/' ∉ s) :
    '/' ∉ replaceChar c '_' s := by
  intro hmem
  rcases mem_replaceChar hmem with h1 | h1
  · exact absurd h1 (by decide)
  · exact h h1

theorem containsChar_eq_false {c : Char} {s : List Char} (h : c ∉ s) :
    containsChar c s = false := by
  simp only [containsChar, List.any_eq_false]
  intro x hx
  simp only [beq_iff_eq]
  intro hxc
  exact h (hxc ▸ hx)

/-- Sanitization removes every `/` (the `('/', '_')` entry of `invalid_chars`),
and no later replacement reintroduces one; the subsequent space replacement
cannot either. So the computed `url` never contains `/`. -/
theorem url_no_slash (title : List Char) :
    '/' ∉ replaceChar ' ' '_' (sanitize_title title) := by
  have h2 : '/' ∉ replaceChar '/' '_' (replaceChar ':' '_' title) :=
    not_mem_replaceChar (by decide) _
  simp only [sanitize_title, invalid_chars, List.foldl_cons, List.foldl_nil]
  exact slash_pres _ (slash_pres _ (slash_pres _ (slash_pres _ (slash_pres _
    (slash_pres _ (slash_pres _ (slash_pres _ h2)))))))

/-! ## Claims C1, C2, C4 -/

/-- Claim C2: for every input title, the invalid-character sanitization of
`retrieve_file_info` replaces `/` with `_` before the split step, so the
sanitized `url` never contains `/`; consequently the relative directory is
empty (the stored directory is just the output root joined with the empty
string), the filename is the whole sanitized url, nothing is appended to
`directory_list`, and the end-of-run rename pass has nothing to rename. -/
theorem C2_sanitize_kills_slash (output title : List Char) :
    containsChar '/' (retrieve_file_info output title).1.url = false ∧
    (retrieve_file_info output title).1.directory = pathJoin output [] ∧
    (retrieve_file_info output title).1.filename = (retrieve_file_info output title).1.url ∧
    (retrieve_file_info output title).2 = [] ∧
    ∀ flatten indexes : Bool,
      rename_files flatten indexes output (retrieve_file_info output title).2 = [] := by
  have hns := url_no_slash title
  have hcc : containsChar '/' (replaceChar ' ' '_' (sanitize_title title)) = false :=
    containsChar_eq_false hns
  simp only [retrieve_file_info, hcc]
  refine ⟨hcc, rfl, rfl, rfl, ?_⟩
  intro flatten indexes
  simp [rename_files]

/-- Claim C1, counterexample: the claim asserts that a dump page titled
`A/B` (with flatten off) is written to `<output>/A/B.md`, the resolved
relative directory being `A` and the filename `B`. In fact sanitization
turns the title into `A_B`, so the resolver returns filename `A_B` (not
`B`), a directory equal to the bare output root, and the page is written to
`<output>/A_B.md`, which differs from `<output>/A/B.md`. -/
theorem C1_counterexample :
    (retrieve_file_info "out".data "A/B".data).1.filename ≠ "B".data ∧
    (retrieve_file_info "out".data "A/B".data).1.directory ≠ pathJoin "out".data "A".data ∧
    save_path (retrieve_file_info "out".data "A/B".data).1 = "out/A_B.md".data ∧
    "out/A_B.md".data ≠ "out/A/B.md".data := by
  refine ⟨?_, ?_, ?_, ?_⟩ <;> decide

/-- Claim C1, amended: sanitization replaces `/` with `_` before the split,
so the sanitized url of `A/B` is `A_B`, the relative directory is empty, the
filename is the whole sanitized url, and the page is written to
`<output>/A_B.md` (never to a nested `<output>/A/B.md`). -/
theorem C1_amended :
    (retrieve_file_info "out".data "A/B".data).1.url = "A_B".data ∧
    (retrieve_file_info "out".data "A/B".data).1.filename = "A_B".data ∧
    (retrieve_file_info "out".data "A/B".data).1.directory = pathJoin "out".data [] ∧
    (retrieve_file_info "out".data "A/B".data).2 = [] ∧
    save_path (retrieve_file_info "out".data "A/B".data).1 = "out/A_B.md".data := by
  refine ⟨?_, ?_, ?_, ?_, ?_⟩ <;> decide

/-- Claim C4, counterexample: with addmeta on, the front matter for the page
titled `A/B` does not contain the line `title: A/B`; the sanitized title
`A_B` is written instead. -/
theorem C4_counterexample :
    containsSubstr "title: A/B".data
      (get_metadata true (retrieve_file_info "out".data "A/B".data).1) = false ∧
    containsSubstr "title: A_B".data
      (get_metadata true (retrieve_file_info "out".data "A/B".data).1) = true := by
  refine ⟨?_, ?_⟩ <;> decide

/-- Claim C4, amended: with addmeta on, the output for the page titled `A/B`
begins with a front-matter block containing the line `title: A_B` (the
sanitized title, `/` replaced by `_`) and the line `permalink: /A_B/`; with
addmeta off the metadata prefix is empty. -/
theorem C4_amended :
    startsWith "---\n".data
      (get_metadata true (retrieve_file_info "out".data "A/B".data).1) = true ∧
    containsSubstr "title: A_B".data
      (get_metadata true (retrieve_file_info "out".data "A/B".data).1) = true ∧
    containsSubstr "permalink: /A_B/".data
      (get_metadata true (retrieve_file_info "out".data "A/B".data).1) = true ∧
    get_metadata false (retrieve_file_info "out".data "A/B".data).1 = [] := by
  refine ⟨?_, ?_, ?_, ?_⟩ <;> decide

/-! ## Markup Normalizer: table-balancing pass of `Convert.clean_text` (lines 188-209) -/

/-- The literal table-open marker the loop appends (Python `'{|'`). -/
def tblOpen : List Char := ['\x7b', '|']

/-- The literal table-close marker (Python `'|}'`). -/
def tblClose : List Char := ['|', '\x7d']

/-- The malformed marker of the third branch (Python `'{|}'`). -/
def tblBad : List Char := ['\x7b', '|', '\x7d']

/-- Embeds one iteration of the table-balancing loop of `Convert.clean_text`
(lines 192-204). State is `(open_tables, cleaned_lines)`; the branch order of
the source is kept, including the third branch, which is unreachable because
every line starting with the malformed marker also starts with the open
marker and is captured by the first branch. -/
def balanceStep (st : Nat × List (List Char)) (line : List Char) :
    Nat × List (List Char) :=
  if startsWith tblOpen (strip line) then
    (st.1 + 1, st.2 ++ [tblOpen])
  else if startsWith tblClose (strip line) then
    if st.1 > 0 then (st.1 - 1, st.2 ++ [tblClose]) else (st.1, st.2)
  else if startsWith tblBad (strip line) then
    (st.1, st.2)
  else
    (st.1, st.2 ++ [line])

/-- Embeds the whole balancing pass (lines 189-207): fold the loop over the
lines, then append one close marker per still-open table. -/
def balance_lines (lines : List (List Char)) : List (List Char) :=
  let st := lines.foldl balanceStep (0, [])
  st.2 ++ List.replicate st.1 tblClose

/-- The pass at text level: `text.split('\n')`, loop, `'\n'.join(...)`
(lines 190 and 209). -/
def balance_text (text : List Char) : List Char :=
  joinChar '\n' (balance_lines (splitChar '\n' text))

/-! ## Claims C3, C10 -/

/-- Claim C3 (code bug): the input consisting of the single line `{|}` is not
dropped — the first branch of the loop captures it as a table opener, so the
output is `{|` followed by a forced `|}`, not the empty text the `continue`
branch (and its comment "Remove malformed table-like structures") intends.
The second half of the claim does hold: one unmatched `{|` line with no `|}`
line yields exactly one appended `|}`. -/
theorem C3_bug_eval :
    balance_text tblBad = tblOpen ++ '\n' :: tblClose ∧
    tblOpen ++ '\n' :: tblClose ≠ ([] : List Char) ∧
    balance_text (tblOpen ++ '\n' :: "hello".data) =
      tblOpen ++ '\n' :: "hello".data ++ '\n' :: tblClose := by
  refine ⟨?_, ?_, ?_⟩ <;> decide

/-- Claim C10: while the open-table counter is zero, a line whose stripped
content starts with `|}` is removed entirely: the step neither changes the
counter nor appends anything. Concretely, the text `|}` + newline + `hello`
balances to just `hello`. -/
theorem C10_excess_close_dropped :
    (∀ (acc : List (List Char)) (line : List Char),
      startsWith tblClose (strip line) = true →
      balanceStep (0, acc) line = (0, acc)) ∧
    balance_text (tblClose ++ '\n' :: "hello".data) = "hello".data := by
  constructor
  · intro acc line h
    have h1 : startsWith tblOpen (strip line) = false := by
      cases hs : strip line with
      | nil => rw [hs] at h; simp [tblClose, startsWith] at h
      | cons c rest =>
        rw [hs] at h
        simp only [tblClose, startsWith, Bool.and_eq_true, beq_iff_eq] at h
        obtain ⟨hc, -⟩ := h
        subst hc
        show (('\x7b' : Char) == '|' && startsWith ['|'] rest) = false
        rw [show (('\x7b' : Char) == '|') = false from rfl, Bool.false_and]
    simp [balanceStep, h1, h]
  · decide

theorem C10_witness :
    balanceStep (0, [['a']]) tblClose = (0, [['a']]) :=
  (C10_excess_close_dropped.1 [['a']] tblClose (by decide))

/-! ## Link Cleaner: `CleanLink.normalize_path` (lines 43-58) -/

/-- One loop iteration of `normalize_path`: skip `.`, pop on `..` (a pop on an
empty stack is a no-op, like Python `if parts: parts.pop()`), push anything else. -/
def resolveStep (parts : List (List Char)) (segment : List Char) : List (List Char) :=
  if segment = ['.'] then parts
  else if segment = ['.', '.'] then parts.dropLast
  else parts ++ [segment]

/-- The `for segment in segments` loop of `normalize_path`. -/
def resolveSegs (segments : List (List Char)) : List (List Char) :=
  segments.foldl resolveStep []

/-- Embeds `re.sub(r'/+', '/', path)`: collapse every run of slashes to one
(each step deletes the first slash of an adjacent pair). -/
def collapseSlashes : List Char → List Char
  | [] => []
  | [c] => [c]
  | c :: d :: rest =>
    if c = '/' ∧ d = '/' then collapseSlashes (d :: rest)
    else c :: collapseSlashes (d :: rest)

/-- Embeds `CleanLink.normalize_path` (lines 43-58): backslashes to slashes,
collapse repeated slashes, split on `/`, resolve `.`/`..`, join with `/`. -/
def normalize_path (path : List Char) : List Char :=
  joinChar '/' (resolveSegs (splitChar '/' (collapseSlashes (replaceChar '\\' '/' path))))

/-! ## Lemmas about `splitChar` and `joinChar` -/

theorem splitChar_ne_nil (sep : Char) : ∀ s, splitChar sep s ≠ []
  | [] => by simp [splitChar]
  | c :: rest => by
    cases hr : splitChar sep rest with
    | nil => exact absurd hr (splitChar_ne_nil sep rest)
    | cons a b =>
      simp only [splitChar, hr]
      by_cases hc : c = sep <;> simp [hc]

theorem splitChar_cons (sep c : Char) (rest : List Char) (a : List Char)
    (b : List (List Char)) (hr : splitChar sep rest = a :: b) :
    splitChar sep (c :: rest) =
      if c = sep then [] :: a :: b else (c :: a) :: b := by
  simp only [splitChar, hr]

theorem splitChar_shape (sep : Char) (s : List Char) :
    ∃ a b, splitChar sep s = a :: b := by
  cases hr : splitChar sep s with
  | nil => exact absurd hr (splitChar_ne_nil sep s)
  | cons a b => exact ⟨a, b, rfl⟩

theorem joinChar_cons_cons (sep c : Char) (a : List Char) (b : List (List Char)) :
    joinChar sep ((c :: a) :: b) = c :: joinChar sep (a :: b) := by
  cases b <;> simp [joinChar]

theorem join_split (sep : Char) : ∀ s, joinChar sep (splitChar sep s) = s
  | [] => rfl
  | c :: rest => by
    obtain ⟨a, b, hr⟩ := splitChar_shape sep rest
    have ih := join_split sep rest
    rw [hr] at ih
    rw [splitChar_cons sep c rest a b hr]
    by_cases hc : c = sep
    · rw [if_pos hc]
      show joinChar sep ([] :: a :: b) = c :: rest
      rw [show joinChar sep ([] :: a :: b) = sep :: joinChar sep (a :: b) by
        simp [joinChar]]
      rw [ih, hc]
    · rw [if_neg hc, joinChar_cons_cons, ih]

theorem mem_splitChar (sep : Char) :
    ∀ s seg, seg ∈ splitChar sep s → ∀ c ∈ seg, c ∈ s ∧ c ≠ sep
  | [], seg => by
    intro h c hc
    simp [splitChar] at h
    subst h
    simp at hc
  | d :: rest, seg => by
    intro h c hc
    obtain ⟨a, b, hr⟩ := splitChar_shape sep rest
    rw [splitChar_cons sep d rest a b hr] at h
    by_cases hd : d = sep
    · rw [if_pos hd] at h
      rcases List.mem_cons.1 h with h1 | h1
      · subst h1; simp at hc
      · have := mem_splitChar sep rest seg (hr ▸ h1) c hc
        exact ⟨List.mem_cons_of_mem _ this.1, this.2⟩
    · rw [if_neg hd] at h
      rcases List.mem_cons.1 h with h1 | h1
      · subst h1
        rcases List.mem_cons.1 hc with h2 | h2
        · subst h2; exact ⟨List.mem_cons_self _ _, hd⟩
        · have := mem_splitChar sep rest a (hr ▸ List.mem_cons_self a b) c h2
          exact ⟨List.mem_cons_of_mem _ this.1, this.2⟩
      · have hb : seg ∈ splitChar sep rest := hr ▸ List.mem_cons_of_mem a h1
        have := mem_splitChar sep rest seg hb c hc
        exact ⟨List.mem_cons_of_mem _ this.1, this.2⟩

theorem split_no_sep (sep : Char) : ∀ x, sep ∉ x → splitChar sep x = [x]
  | [], _ => rfl
  | c :: rest, h => by
    have hr := split_no_sep sep rest (fun hm => h (List.mem_cons_of_mem _ hm))
    have hcs : ¬ (c = sep) := fun hceq => h (by rw [← hceq]; exact List.mem_cons_self _ _)
    rw [splitChar_cons sep c rest rest [] hr, if_neg hcs]

theorem split_app (sep : Char) :
    ∀ a s, sep ∉ a → splitChar sep (a ++ sep :: s) = a :: splitChar sep s
  | [], s, _ => by
    obtain ⟨h, t, hr⟩ := splitChar_shape sep s
    rw [List.nil_append, splitChar_cons sep sep s h t hr, if_pos rfl, hr]
  | c :: a', s, h => by
    have ih := split_app sep a' s (fun hm => h (List.mem_cons_of_mem _ hm))
    have hcs : ¬ (c = sep) := fun hceq => h (by rw [← hceq]; exact List.mem_cons_self _ _)
    rw [List.cons_append,
      splitChar_cons sep c (a' ++ sep :: s) a' (splitChar sep s) ih,
      if_neg hcs]

theorem split_join (l : List (List Char)) (hl : ∀ seg ∈ l, '/' ∉ seg) :
    splitChar '/' (joinChar '/' l) = if l = [] then [[]] else l := by
  induction l with
  | nil => rfl
  | cons x ys ih =>
    rw [if_neg (List.cons_ne_nil x ys)]
    cases ys with
    | nil =>
      show splitChar '/' x = [x]
      exact split_no_sep '/' x (hl x (List.mem_cons_self _ _))
    | cons y r =>
      show splitChar '/' (x ++ '/' :: joinChar '/' (y :: r)) = x :: y :: r
      rw [split_app '/' x (joinChar '/' (y :: r)) (hl x (List.mem_cons_self _ _))]
      have := ih (fun seg hs => hl seg (List.mem_cons_of_mem _ hs))
      rw [if_neg (List.cons_ne_nil y r)] at this
      rw [this]

theorem mem_joinChar (sep : Char) :
    ∀ l c, c ∈ joinChar sep l → c = sep ∨ ∃ seg ∈ l, c ∈ seg
  | [], c => by intro h; simp [joinChar] at h
  | [x], c => by
    intro h
    exact Or.inr ⟨x, List.mem_cons_self _ _, h⟩
  | x :: y :: r, c => by
    intro h
    rcases List.mem_append.1 h with h1 | h1
    · exact Or.inr ⟨x, List.mem_cons_self _ _, h1⟩
    · rcases List.mem_cons.1 h1 with h2 | h2
      · exact Or.inl h2
      · rcases mem_joinChar sep (y :: r) c h2 with h3 | ⟨seg, hs, hc⟩
        · exact Or.inl h3
        · exact Or.inr ⟨seg, List.mem_cons_of_mem _ hs, hc⟩

theorem mem_collapseSlashes : ∀ s c, c ∈ collapseSlashes s → c ∈ s
  | [], c => by simp [collapseSlashes]
  | [d], c => by simp [collapseSlashes]
  | d :: e :: rest, c => by
    intro h
    by_cases hde : d = '/' ∧ e = '/'
    · rw [show collapseSlashes (d :: e :: rest) = collapseSlashes (e :: rest) by
        simp [collapseSlashes, hde]] at h
      exact List.mem_cons_of_mem _ (mem_collapseSlashes (e :: rest) c h)
    · rw [show collapseSlashes (d :: e :: rest) = d :: collapseSlashes (e :: rest) by
        simp [collapseSlashes, hde]] at h
      rcases List.mem_cons.1 h with h1 | h1
      · exact h1 ▸ List.mem_cons_self _ _
      · exact List.mem_cons_of_mem _ (mem_collapseSlashes (e :: rest) c h1)

/-! ## Invariants for the idempotence of `normalize_path` -/

/-- No two adjacent slashes (the fixed point of `collapseSlashes`). -/
def noConsecSlash (s : List Char) : Prop :=
  List.Chain' (fun a b => ¬(a = '/' ∧ b = '/')) s

/-- Every element of the tail except the last is non-empty: empty segments
occur only in first or last position. Lists of this shape joined by `/`
contain no `//`. -/
def okParts (l : List (List Char)) : Prop :=
  ∀ s ∈ l.tail.dropLast, s ≠ []

/-- All elements of the tail are non-empty (fold invariant of the resolver
before its final segment). -/
def tailNonempty (l : List (List Char)) : Prop :=
  ∀ s ∈ l.tail, s ≠ []

theorem collapse_cons (c : Char) (s : List Char) :
    ∃ t, collapseSlashes (c :: s) = c :: t := by
  induction s generalizing c with
  | nil => exact ⟨[], rfl⟩
  | cons d rest ih =>
    by_cases h : c = '/' ∧ d = '/'
    · obtain ⟨t, ht⟩ := ih d
      refine ⟨t, ?_⟩
      rw [show collapseSlashes (c :: d :: rest) = collapseSlashes (d :: rest) by
        simp [collapseSlashes, h]]
      rw [ht, h.1, h.2]
    · exact ⟨collapseSlashes (d :: rest), by simp [collapseSlashes, h]⟩

theorem collapse_noConsec : ∀ s, noConsecSlash (collapseSlashes s)
  | [] => List.chain'_nil
  | [c] => List.chain'_singleton c
  | c :: d :: rest => by
    by_cases h : c = '/' ∧ d = '/'
    · have ih := collapse_noConsec (d :: rest)
      rw [show collapseSlashes (c :: d :: rest) = collapseSlashes (d :: rest) by
        simp [collapseSlashes, h]]
      exact ih
    · have ih := collapse_noConsec (d :: rest)
      obtain ⟨t, ht⟩ := collapse_cons d rest
      rw [show collapseSlashes (c :: d :: rest) = c :: collapseSlashes (d :: rest) by
        simp [collapseSlashes, h]]
      rw [ht]
      rw [ht] at ih
      exact (List.chain'_cons).2 ⟨fun hcd => h hcd, ih⟩

theorem collapse_id : ∀ s, noConsecSlash s → collapseSlashes s = s
  | [], _ => rfl
  | [_], _ => rfl
  | c :: d :: rest, h => by
    have h1 : ¬(c = '/' ∧ d = '/') := ((List.chain'_cons).1 h).1
    have h2 : noConsecSlash (d :: rest) := ((List.chain'_cons).1 h).2
    rw [show collapseSlashes (c :: d :: rest) = c :: collapseSlashes (d :: rest) by
      simp [collapseSlashes, h1]]
    rw [collapse_id (d :: rest) h2]

theorem noConsec_tail {x : Char} {xs : List Char}
    (h : noConsecSlash (x :: xs)) : noConsecSlash xs := by
  cases xs with
  | nil => exact List.chain'_nil
  | cons y ys => exact ((List.chain'_cons).1 h).2

theorem noConsec_cons_of_ne {a : Char} {w : List Char}
    (ha : a ≠ '/') (hw : noConsecSlash w) : noConsecSlash (a :: w) := by
  cases w with
  | nil => exact List.chain'_singleton a
  | cons b w' => exact (List.chain'_cons).2 ⟨fun hab => ha hab.1, hw⟩

theorem noConsec_slash_cons {w : List Char}
    (hw : noConsecSlash w) (hh : w.head? ≠ some '/') : noConsecSlash ('/' :: w) := by
  cases w with
  | nil => exact List.chain'_singleton _
  | cons b w' =>
    refine (List.chain'_cons).2 ⟨fun hab => ?_, hw⟩
    exact hh (by rw [hab.2]; rfl)

theorem noConsec_append {x s : List Char}
    (hx : ∀ c ∈ x, c ≠ '/') (hs : noConsecSlash s) : noConsecSlash (x ++ s) := by
  induction x with
  | nil => exact hs
  | cons a x' ih =>
    have := ih (fun c hc => hx c (List.mem_cons_of_mem _ hc))
    exact noConsec_cons_of_ne (hx a (List.mem_cons_self _ _)) this

theorem noConsec_of_no_slash {x : List Char}
    (hx : ∀ c ∈ x, c ≠ '/') : noConsecSlash x := by
  have := noConsec_append hx List.chain'_nil
  rwa [List.append_nil] at this

/-- All elements but the last are non-empty. -/
def frontNonempty (l : List (List Char)) : Prop :=
  ∀ seg ∈ l.dropLast, seg ≠ []

theorem frontNonempty_cons {x : List Char} {t : List (List Char)}
    (hx : x ≠ []) (ht : frontNonempty t) : frontNonempty (x :: t) := by
  intro seg hs
  cases t with
  | nil => simp at hs
  | cons u v =>
    rw [show (x :: u :: v).dropLast = x :: (u :: v).dropLast from rfl] at hs
    rcases List.mem_cons.1 hs with h1 | h1
    · exact h1 ▸ hx
    · exact ht seg h1

theorem frontNonempty_tail {x : List Char} {t : List (List Char)}
    (h : frontNonempty (x :: t)) : frontNonempty t := by
  intro seg hs
  apply h
  cases t with
  | nil => simp at hs
  | cons u v =>
    rw [show (x :: u :: v).dropLast = x :: (u :: v).dropLast from rfl]
    exact List.mem_cons_of_mem _ hs

theorem split_frontNonempty : ∀ s : List Char, noConsecSlash s →
    s.head? ≠ some '/' → frontNonempty (splitChar '/' s)
  | [], _, _ => by intro seg hs; simp [splitChar] at hs
  | [c], _, hh => by
    intro seg hs
    have hc : ¬ (c = '/') := fun hceq => hh (by rw [hceq]; rfl)
    rw [splitChar_cons '/' c [] [] [] rfl, if_neg hc] at hs
    simp at hs
  | c :: d :: rest, h, hh => by
    have hc : ¬ (c = '/') := fun hceq => hh (by rw [hceq]; rfl)
    obtain ⟨a, b, hr⟩ := splitChar_shape '/' (d :: rest)
    rw [splitChar_cons '/' c (d :: rest) a b hr, if_neg hc]
    by_cases hd : d = '/'
    · obtain ⟨a2, b2, hr2⟩ := splitChar_shape '/' rest
      have hcomp : splitChar '/' (d :: rest) = [] :: a2 :: b2 := by
        rw [splitChar_cons '/' d rest a2 b2 hr2, if_pos hd]
      rw [hcomp] at hr
      injection hr with h1 h2
      have hresthead : rest.head? ≠ some '/' := by
        cases rest with
        | nil => simp
        | cons r rr =>
          have hpair := ((List.chain'_cons).1 (noConsec_tail h)).1
          intro hsome
          apply hpair
          refine ⟨hd, ?_⟩
          injection hsome
      have hq := split_frontNonempty rest (noConsec_tail (noConsec_tail h)) hresthead
      rw [hr2] at hq
      rw [h2] at hq
      exact frontNonempty_cons (List.cons_ne_nil c a) hq
    · have hq := split_frontNonempty (d :: rest) (noConsec_tail h)
        (by intro hsome; apply hd; injection hsome)
      rw [hr] at hq
      exact frontNonempty_cons (List.cons_ne_nil c a) (frontNonempty_tail hq)

theorem split_okParts (s : List Char) (h : noConsecSlash s) :
    okParts (splitChar '/' s) := by
  cases s with
  | nil => intro seg hs; simp [splitChar] at hs
  | cons c rest =>
    obtain ⟨a, b, hr⟩ := splitChar_shape '/' rest
    by_cases hc : c = '/'
    · rw [splitChar_cons '/' c rest a b hr, if_pos hc]
      have hresthead : rest.head? ≠ some '/' := by
        cases rest with
        | nil => simp
        | cons r rr =>
          have hpair := ((List.chain'_cons).1 h).1
          intro hsome
          apply hpair
          refine ⟨hc, ?_⟩
          injection hsome
      have hq := split_frontNonempty rest (noConsec_tail h) hresthead
      rw [hr] at hq
      exact hq
    · rw [splitChar_cons '/' c rest a b hr, if_neg hc]
      have hq := split_frontNonempty (c :: rest) h
        (by intro hsome; apply hc; injection hsome)
      rw [splitChar_cons '/' c rest a b hr, if_neg hc] at hq
      exact frontNonempty_tail hq

theorem mem_resolve_foldl : ∀ (segs : List (List Char)) init seg,
    seg ∈ segs.foldl resolveStep init →
    seg ∈ init ∨ (seg ∈ segs ∧ seg ≠ ['.'] ∧ seg ≠ ['.', '.'])
  | [], _, _ => fun h => Or.inl h
  | s0 :: rest, init, seg => by
    intro h
    rcases mem_resolve_foldl rest (resolveStep init s0) seg h with h1 | h1
    · unfold resolveStep at h1
      by_cases c1 : s0 = ['.']
      · rw [if_pos c1] at h1; exact Or.inl h1
      · rw [if_neg c1] at h1
        by_cases c2 : s0 = ['.', '.']
        · rw [if_pos c2] at h1
          exact Or.inl ((List.dropLast_sublist init).subset h1)
        · rw [if_neg c2] at h1
          rcases List.mem_append.1 h1 with h2 | h2
          · exact Or.inl h2
          · rw [List.mem_singleton] at h2
            subst h2
            exact Or.inr ⟨List.mem_cons_self _ _, c1, c2⟩
    · exact Or.inr ⟨List.mem_cons_of_mem _ h1.1, h1.2⟩

theorem tailNonempty_dropLast {l : List (List Char)} (h : tailNonempty l) :
    tailNonempty l.dropLast := by
  intro s hs
  cases l with
  | nil => simp at hs
  | cons x t =>
    cases t with
    | nil => simp at hs
    | cons u v =>
      apply h
      rw [show (x :: u :: v).dropLast = x :: (u :: v).dropLast from rfl] at hs
      exact (List.dropLast_sublist (u :: v)).subset hs

theorem tailNonempty_push {l : List (List Char)} {seg : List Char}
    (h : tailNonempty l) (hseg : seg ≠ []) : tailNonempty (l ++ [seg]) := by
  intro s hs
  cases l with
  | nil => simp at hs
  | cons x t =>
    rw [show ((x :: t ++ [seg]).tail) = t ++ [seg] from rfl] at hs
    rcases List.mem_append.1 hs with h1 | h1
    · exact h s h1
    · rw [List.mem_singleton] at h1; subst h1; exact hseg

theorem tailNonempty_okParts {l : List (List Char)} (h : tailNonempty l) :
    okParts l :=
  fun s hs => h s ((List.dropLast_sublist _).subset hs)

theorem tailNonempty_step {init : List (List Char)} {seg : List Char}
    (hT : tailNonempty init) (hne : seg ≠ []) :
    tailNonempty (resolveStep init seg) := by
  unfold resolveStep
  by_cases c1 : seg = ['.']
  · rw [if_pos c1]; exact hT
  · rw [if_neg c1]
    by_cases c2 : seg = ['.', '.']
    · rw [if_pos c2]; exact tailNonempty_dropLast hT
    · rw [if_neg c2]; exact tailNonempty_push hT hne

theorem okParts_step_last {init : List (List Char)} (seg : List Char)
    (hT : tailNonempty init) : okParts (resolveStep init seg) := by
  unfold resolveStep
  by_cases c1 : seg = ['.']
  · rw [if_pos c1]; exact tailNonempty_okParts hT
  · rw [if_neg c1]
    by_cases c2 : seg = ['.', '.']
    · rw [if_pos c2]; exact tailNonempty_okParts (tailNonempty_dropLast hT)
    · rw [if_neg c2]
      intro s hs
      cases init with
      | nil => simp at hs
      | cons x t =>
        rw [show ((x :: t ++ [seg]).tail) = t ++ [seg] from rfl] at hs
        rw [show (t ++ [seg]).dropLast = t by simp] at hs
        exact hT s hs

theorem resolve_ok_core : ∀ (rest : List (List Char)) init, tailNonempty init →
    (∀ s ∈ rest.dropLast, s ≠ []) → okParts (rest.foldl resolveStep init)
  | [], _, hT, _ => tailNonempty_okParts hT
  | [seg], _, hT, _ => okParts_step_last seg hT
  | seg :: s2 :: rest, init, hT, hmid => by
    have hne : seg ≠ [] := hmid seg (by
      rw [show (seg :: s2 :: rest).dropLast = seg :: (s2 :: rest).dropLast from rfl]
      exact List.mem_cons_self _ _)
    have hmid' : ∀ s ∈ (s2 :: rest).dropLast, s ≠ [] := fun s hs => hmid s (by
      rw [show (seg :: s2 :: rest).dropLast = seg :: (s2 :: rest).dropLast from rfl]
      exact List.mem_cons_of_mem _ hs)
    exact resolve_ok_core (s2 :: rest) (resolveStep init seg)
      (tailNonempty_step hT hne) hmid'

theorem resolve_preserves_ok (segs : List (List Char)) (hok : okParts segs) :
    okParts (resolveSegs segs) := by
  cases segs with
  | nil => intro s hs; simp [resolveSegs] at hs
  | cons s0 rest =>
    have hT : tailNonempty (resolveStep [] s0) := by
      unfold resolveStep
      by_cases c1 : s0 = ['.']
      · rw [if_pos c1]; intro s hs; simp at hs
      · rw [if_neg c1]
        by_cases c2 : s0 = ['.', '.']
        · rw [if_pos c2]; intro s hs; simp at hs
        · rw [if_neg c2]; intro s hs; simp at hs
    exact resolve_ok_core rest (resolveStep [] s0) hT hok

theorem resolve_foldl_id : ∀ (l : List (List Char)) init,
    (∀ seg ∈ l, seg ≠ ['.'] ∧ seg ≠ ['.', '.']) →
    l.foldl resolveStep init = init ++ l
  | [], init, _ => (List.append_nil init).symm
  | seg :: rest, init, h => by
    have h0 := h seg (List.mem_cons_self _ _)
    have hstep : resolveStep init seg = init ++ [seg] := by
      unfold resolveStep; rw [if_neg h0.1, if_neg h0.2]
    show rest.foldl resolveStep (resolveStep init seg) = init ++ seg :: rest
    rw [hstep,
      resolve_foldl_id rest (init ++ [seg]) (fun s hs => h s (List.mem_cons_of_mem _ hs))]
    simp

theorem resolve_id (l : List (List Char))
    (h : ∀ seg ∈ l, seg ≠ ['.'] ∧ seg ≠ ['.', '.']) : resolveSegs l = l := by
  unfold resolveSegs
  rw [resolve_foldl_id l [] h]
  rfl

theorem join_noConsec : ∀ l : List (List Char),
    (∀ seg ∈ l, '/' ∉ seg) → okParts l → noConsecSlash (joinChar '/' l)
  | [], _, _ => List.chain'_nil
  | [x], hl, _ =>
    noConsec_of_no_slash
      (fun c hc hceq => hl x (List.mem_cons_self _ _) (hceq ▸ hc))
  | x :: y :: r, hl, hok => by
    show noConsecSlash (x ++ '/' :: joinChar '/' (y :: r))
    have hxs : ∀ c ∈ x, c ≠ '/' :=
      fun c hc hceq => hl x (List.mem_cons_self _ _) (hceq ▸ hc)
    apply noConsec_append hxs
    have hok' : okParts (y :: r) := by
      intro s hs
      apply hok
      cases r with
      | nil => simp at hs
      | cons u v =>
        rw [show ((x :: y :: u :: v).tail).dropLast = y :: (u :: v).dropLast from rfl]
        rw [show ((y :: u :: v).tail).dropLast = (u :: v).dropLast from rfl] at hs
        exact List.mem_cons_of_mem _ hs
    have hrec : noConsecSlash (joinChar '/' (y :: r)) :=
      join_noConsec (y :: r) (fun seg hs => hl seg (List.mem_cons_of_mem _ hs)) hok'
    apply noConsec_slash_cons hrec
    cases y with
    | cons c y' =>
      rw [joinChar_cons_cons]
      intro hh
      have hc : c = '/' := by injection hh
      have hmm : ('/' : Char) ∈ c :: y' := by
        rw [← hc]; exact List.mem_cons_self _ _
      exact hl (c :: y') (List.mem_cons_of_mem _ (List.mem_cons_self _ _)) hmm
    | nil =>
      cases r with
      | nil => intro hh; simp [joinChar] at hh
      | cons u v =>
        exfalso
        apply hok ([] : List Char) ?_ rfl
        rw [show ((x :: ([] : List Char) :: u :: v).tail).dropLast
            = ([] : List Char) :: (u :: v).dropLast from rfl]
        exact List.mem_cons_self _ _

theorem replaceChar_id {c r : Char} {s : List Char}
    (h : ∀ x ∈ s, x ≠ c) : replaceChar c r s = s := by
  induction s with
  | nil => rfl
  | cons a rest ih =>
    show (if a = c then r else a) :: replaceChar c r rest = a :: rest
    rw [if_neg (h a (List.mem_cons_self _ _)),
      ih (fun x hx => h x (List.mem_cons_of_mem _ hx))]

/-- A joined list of `/`-free, dot-free segments whose empties sit only at the
ends is a fixed point of `normalize_path`. -/
theorem normalize_fixed (parts : List (List Char))
    (hnseg : ∀ seg ∈ parts, '/' ∉ seg)
    (hdots : ∀ seg ∈ parts, seg ≠ ['.'] ∧ seg ≠ ['.', '.'])
    (hnb : ∀ seg ∈ parts, '\\' ∉ seg)
    (hok : okParts parts) :
    normalize_path (joinChar '/' parts) = joinChar '/' parts := by
  have hnbjoin : ∀ x ∈ joinChar '/' parts, x ≠ '\\' := by
    intro x hx hxeq
    rcases mem_joinChar '/' parts x hx with h1 | ⟨seg, hsm, hcm⟩
    · rw [hxeq] at h1; exact absurd h1 (by decide)
    · rw [hxeq] at hcm; exact hnb seg hsm hcm
  have hnc : noConsecSlash (joinChar '/' parts) := join_noConsec parts hnseg hok
  unfold normalize_path
  rw [replaceChar_id hnbjoin, collapse_id _ hnc, split_join parts hnseg]
  by_cases hp : parts = []
  · rw [if_pos hp, hp]
    decide
  · rw [if_neg hp, resolve_id parts hdots]

/-- Claim C7: `normalize_path` is idempotent, and on the claim's examples it
gives `a/./b` to `a/b`, `a/b/../c` to `a/c`, and `../a` to `a` (a leading
`..` with no preceding segment is dropped). -/
theorem C7_normalize_idempotent :
    (∀ p, normalize_path (normalize_path p) = normalize_path p) ∧
    normalize_path "a/./b".data = "a/b".data ∧
    normalize_path "a/b/../c".data = "a/c".data ∧
    normalize_path "../a".data = "a".data := by
  refine ⟨?_, by decide, by decide, by decide⟩
  intro p
  show normalize_path (joinChar '/'
      (resolveSegs (splitChar '/' (collapseSlashes (replaceChar '\\' '/' p)))))
    = joinChar '/' (resolveSegs (splitChar '/' (collapseSlashes (replaceChar '\\' '/' p))))
  have hmem : ∀ seg ∈ resolveSegs (splitChar '/' (collapseSlashes (replaceChar '\\' '/' p))),
      seg ∈ splitChar '/' (collapseSlashes (replaceChar '\\' '/' p)) ∧
      seg ≠ ['.'] ∧ seg ≠ ['.', '.'] := by
    intro seg hs
    rcases mem_resolve_foldl _ [] seg hs with h1 | h1
    · simp at h1
    · exact h1
  apply normalize_fixed
  · intro seg hs hslash
    exact (mem_splitChar '/' _ seg (hmem seg hs).1 '/' hslash).2 rfl
  · intro seg hs
    exact (hmem seg hs).2
  · intro seg hs hbs
    have h2 := (mem_splitChar '/' _ seg (hmem seg hs).1 '\\' hbs).1
    have h3 := mem_collapseSlashes _ '\\' h2
    exact not_mem_replaceChar (by decide) p h3
  · exact resolve_preserves_ok _ (split_okParts _ (collapse_noConsec _))

/-! ## Link Cleaner: `CleanLink.clean_link` (lines 13-41) -/

/-- Matches the regex `^\.*?/`: a (possibly empty) run of dots followed by `/`. -/
def relStart (s : List Char) : Bool :=
  (s.dropWhile fun c => c == '.').head? == some '/'

/-- Embeds `CleanLink.clean_link` (lines 13-41), acting on the link body
(regex group 1 of `[[...]]`); `flatten` and the page `url` are the
constructor state of `CleanLink` (lines 8-11). -/
def clean_link (flatten : Bool) (url : List Char) (body : List Char) : List Char :=
  if startsWith "http://".data body || startsWith "https://".data body then
    '[' :: body ++ [']']
  else
    let body1 := if relStart body then url ++ '/' :: body else body
    let lk := if containsChar '|' body1 then splitFirst '|' body1 else (body1, body1)
    let link0 := normalize_path (strip lk.1)
    let link1 := if flatten then replaceChar '/' '_' link0 else link0
    let link2 := replaceChar ' ' '_' link1
    "[[".data ++ link2 ++ '|' :: strip lk.2 ++ "]]".data

/-- Claim C8: a link body starting with `http://` or `https://` is emitted as
the single-bracket literal `[body]`, with no pipe-splitting, path
normalization, flattening or space replacement applied. -/
theorem C8_http_literal (flatten : Bool) (url body : List Char)
    (h : startsWith "http://".data body = true ∨
         startsWith "https://".data body = true) :
    clean_link flatten url body = '[' :: body ++ [']'] := by
  unfold clean_link
  rcases h with h | h <;> rw [h] <;> simp

theorem C8_witness :
    clean_link false [] "http://example.com/a b|c".data
      = '[' :: "http://example.com/a b|c".data ++ [']'] :=
  C8_http_literal false [] "http://example.com/a b|c".data (Or.inl (by decide))

/-! ## Render loop: `Convert.convert_data` (lines 277-326; the second
definition of the duplicated method, the one Python binds) -/

/-- Outcome of one page of the loop: the page may lack a title or a text
element (both are skipped with a warning before the try block), or its try
body (clean, convert with pandoc or the template rewriter, save) runs and
either produces output text or raises with a diagnostic. -/
inductive PageOutcome where
  | missingTitle
  | missingText
  | result (r : Except (List Char) (List Char))

/-- Embeds the control flow of `Convert.convert_data`: skipped pages are
passed over; a successful body appends its output and increments the
counter; a raising body aborts the whole run when skiperrors is unset
(the remaining pages are never processed) and is logged and skipped when it
is set. Returns (outputs written in order, final counter, aborting error if
any). -/
def convert_data (skiperrors : Bool) :
    List PageOutcome → List (List Char) × Nat × Option (List Char)
  | [] => ([], 0, none)
  | .missingTitle :: rest => convert_data skiperrors rest
  | .missingText :: rest => convert_data skiperrors rest
  | .result (.ok a) :: rest =>
    match convert_data skiperrors rest with
    | (outs, n, err) => (a :: outs, n + 1, err)
  | .result (.error e) :: rest =>
    if skiperrors then convert_data skiperrors rest
    else ([], 0, some e)

/-- Pages whose try body does not raise. -/
def pageOk : PageOutcome → Bool
  | .result (.error _) => false
  | _ => true

/-- The outputs the loop writes for a list of non-raising pages. -/
def pageOuts : List PageOutcome → List (List Char)
  | [] => []
  | .result (.ok a) :: rest => a :: pageOuts rest
  | _ :: rest => pageOuts rest

/-- Claim C6: if skiperrors is false, a raising page aborts the run — only
the pages before it produce output and count, nothing after it is processed,
and the error is surfaced; if skiperrors is true, the raising page produces
no output, does not increment the counter, and the run continues exactly as
if the page were absent. -/
theorem C6_error_policy :
    (∀ (pre post : List PageOutcome) (e : List Char),
      (∀ p ∈ pre, pageOk p = true) →
      convert_data false (pre ++ .result (.error e) :: post)
        = (pageOuts pre, (pageOuts pre).length, some e)) ∧
    (∀ (l1 l2 : List PageOutcome) (e : List Char),
      convert_data true (l1 ++ .result (.error e) :: l2)
        = convert_data true (l1 ++ l2)) := by
  constructor
  · intro pre post e hok
    induction pre with
    | nil => simp [convert_data, pageOuts]
    | cons p rest ih =>
      have hih := ih fun q hq => hok q (List.mem_cons_of_mem _ hq)
      cases p with
      | missingTitle => simpa [convert_data, pageOuts] using hih
      | missingText => simpa [convert_data, pageOuts] using hih
      | result r =>
        cases r with
        | ok a => simp [convert_data, pageOuts, hih]
        | error e2 =>
          have := hok (.result (.error e2)) (List.mem_cons_self _ _)
          simp [pageOk] at this
  · intro l1 l2 e
    induction l1 with
    | nil => simp [convert_data]
    | cons p rest ih =>
      cases p with
      | missingTitle => simp [convert_data, ih]
      | missingText => simp [convert_data, ih]
      | result r =>
        cases r with
        | ok a => simp [convert_data, ih]
        | error e2 => simp [convert_data, ih]

theorem C6_witness :
    convert_data false
      [.result (.ok "one".data), .result (.error "boom".data), .result (.ok "two".data)]
      = (["one".data], 1, some "boom".data) :=
  C6_error_policy.1 [.result (.ok "one".data)] [.result (.ok "two".data)]
    "boom".data (by decide)

/-! ## Template detection of `Convert.clean_text` (lines 140-146) -/

/-- Embeds lines 140-141 of `clean_text`: decode the HTML-escaped angle
brackets (two `re.sub` calls with literal patterns, `&lt;` first). -/
def decode_entities (text : List Char) : List Char :=
  replaceAll "&gt;".data ">".data (replaceAll "&lt;".data "<".data text)

/-- Embeds lines 143-146 of `clean_text`: the template heuristic; it runs on
the entity-decoded text, which is what `text` holds by line 145. -/
def detect_template (text : List Char) : Bool :=
  containsSubstr "<noinclude>".data (decode_entities text) &&
  containsSubstr "\x7b\x7b".data (decode_entities text) &&
  containsSubstr "\x7d\x7d".data (decode_entities text)

/-! ## Substring preservation under literal replacement -/

theorem startsWith_iff : ∀ p s : List Char, startsWith p s = true ↔ ∃ t, p ++ t = s
  | [], s => by
    constructor
    · intro _; exact ⟨s, rfl⟩
    · intro _; rfl
  | p0 :: ps, [] => by
    constructor
    · intro h; exact absurd h (by simp [startsWith])
    · rintro ⟨t, ht⟩; exact absurd ht (by simp)
  | p0 :: ps, c :: cs => by
    rw [show startsWith (p0 :: ps) (c :: cs) = (p0 == c && startsWith ps cs) from rfl]
    rw [Bool.and_eq_true, beq_iff_eq]
    constructor
    · rintro ⟨he, hs⟩
      obtain ⟨t, ht⟩ := (startsWith_iff ps cs).1 hs
      exact ⟨t, by rw [List.cons_append, ht, he]⟩
    · rintro ⟨t, ht⟩
      rw [List.cons_append] at ht
      injection ht with h1 h2
      exact ⟨h1, (startsWith_iff ps cs).2 ⟨t, h2⟩⟩

theorem containsSubstr_iff : ∀ p s : List Char,
    containsSubstr p s = true ↔ ∃ a b, a ++ p ++ b = s
  | p, [] => by
    constructor
    · intro h
      obtain ⟨t, ht⟩ := (startsWith_iff p []).1 h
      exact ⟨[], t, by simpa using ht⟩
    · rintro ⟨a, b, hab⟩
      show startsWith p [] = true
      cases a with
      | cons a0 a' => simp at hab
      | nil =>
        rw [List.nil_append] at hab
        rcases List.append_eq_nil.1 hab with ⟨hp, hb⟩
        rw [hp]
        rfl
  | p, c :: rest => by
    rw [show containsSubstr p (c :: rest)
        = (startsWith p (c :: rest) || containsSubstr p rest) from rfl]
    rw [Bool.or_eq_true]
    constructor
    · rintro (h | h)
      · obtain ⟨t, ht⟩ := (startsWith_iff p (c :: rest)).1 h
        exact ⟨[], t, by simpa using ht⟩
      · obtain ⟨a, b, hab⟩ := (containsSubstr_iff p rest).1 h
        exact ⟨c :: a, b, by rw [List.cons_append, List.cons_append, hab]⟩
    · rintro ⟨a, b, hab⟩
      cases a with
      | nil =>
        exact Or.inl ((startsWith_iff p (c :: rest)).2 ⟨b, by simpa using hab⟩)
      | cons a0 a' =>
        rw [List.cons_append, List.cons_append] at hab
        injection hab with h1 h2
        exact Or.inr ((containsSubstr_iff p rest).2 ⟨a', b, h2⟩)

theorem replace_keeps_start (pat rep : List Char) (ph : Char) (pt : List Char)
    (hpat : pat = ph :: pt) :
    ∀ (fuel : Nat) (q s : List Char), (∃ t, q ++ t = s) → ph ∉ q →
      ∃ u, q ++ u = replaceAllFuel pat rep fuel s
  | 0, _, _ => fun h _ => h
  | fuel + 1, q, s => by
    intro hpre hmem
    cases q with
    | nil => exact ⟨replaceAllFuel pat rep (fuel + 1) s, rfl⟩
    | cons x q' =>
      obtain ⟨t, ht⟩ := hpre
      rw [List.cons_append] at ht
      subst ht
      have hnm : startsWith pat (x :: (q' ++ t)) = false := by
        rw [hpat]
        rw [show startsWith (ph :: pt) (x :: (q' ++ t))
            = (ph == x && startsWith pt (q' ++ t)) from rfl]
        have hne : (ph == x) = false := by
          rw [beq_eq_false_iff_ne]
          intro he
          apply hmem
          rw [he]
          exact List.mem_cons_self _ _
        rw [hne, Bool.false_and]
      have hstep : replaceAllFuel pat rep (fuel + 1) (x :: (q' ++ t))
          = x :: replaceAllFuel pat rep fuel (q' ++ t) := by
        rw [show replaceAllFuel pat rep (fuel + 1) (x :: (q' ++ t))
            = if startsWith pat (x :: (q' ++ t)) then
                rep ++ replaceAllFuel pat rep fuel ((q' ++ t).drop (pat.length - 1))
              else x :: replaceAllFuel pat rep fuel (q' ++ t) from rfl]
        simp [hnm]
      obtain ⟨u, hu⟩ := replace_keeps_start pat rep ph pt hpat fuel q' (q' ++ t)
        ⟨t, rfl⟩ (fun hm => hmem (List.mem_cons_of_mem _ hm))
      exact ⟨u, by rw [List.cons_append, hstep, ← hu]⟩

theorem replace_keeps_sub (pat rep p : List Char) (ph : Char) (pt : List Char)
    (hpat : pat = ph :: pt) (hph : ph ∉ p)
    (hover : ∀ j, j < pat.length → 0 < j →
      startsWith (pat.drop j) p = false ∧ startsWith p (pat.drop j) = false) :
    ∀ (fuel : Nat) (a b : List Char), (a ++ p ++ b).length ≤ fuel →
      ∃ x y, x ++ p ++ y = replaceAllFuel pat rep fuel (a ++ p ++ b)
  | 0, a, b => by
    intro hlen
    simp only [Nat.le_zero, List.length_eq_zero, List.append_eq_nil] at hlen
    obtain ⟨⟨ha, hp⟩, hb⟩ := hlen
    subst ha; subst hp; subst hb
    exact ⟨[], [], rfl⟩
  | fuel + 1, a, b => by
    intro hlen
    cases a with
    | nil =>
      cases hp : p with
      | nil => exact ⟨[], replaceAllFuel pat rep (fuel + 1) ([] ++ p ++ b), by
          rw [hp]; rfl⟩
      | cons x p' =>
        subst hp
        rw [List.nil_append, List.cons_append]
        have hnm : startsWith pat (x :: (p' ++ b)) = false := by
          rw [hpat]
          rw [show startsWith (ph :: pt) (x :: (p' ++ b))
              = (ph == x && startsWith pt (p' ++ b)) from rfl]
          have hne : (ph == x) = false := by
            rw [beq_eq_false_iff_ne]
            intro he
            apply hph
            rw [he]
            exact List.mem_cons_self _ _
          rw [hne, Bool.false_and]
        have hstep : replaceAllFuel pat rep (fuel + 1) (x :: (p' ++ b))
            = x :: replaceAllFuel pat rep fuel (p' ++ b) := by
          rw [show replaceAllFuel pat rep (fuel + 1) (x :: (p' ++ b))
              = if startsWith pat (x :: (p' ++ b)) then
                  rep ++ replaceAllFuel pat rep fuel ((p' ++ b).drop (pat.length - 1))
                else x :: replaceAllFuel pat rep fuel (p' ++ b) from rfl]
          simp [hnm]
        obtain ⟨u, hu⟩ := replace_keeps_start pat rep ph pt hpat fuel p' (p' ++ b)
          ⟨b, rfl⟩ (fun hm => hph (List.mem_cons_of_mem _ hm))
        refine ⟨[], u, ?_⟩
        rw [hstep, List.nil_append, List.cons_append, hu]
    | cons c a' =>
      rw [List.cons_append, List.cons_append]
      by_cases hm : startsWith pat (c :: (a' ++ p ++ b)) = true
      · have hstep : replaceAllFuel pat rep (fuel + 1) (c :: (a' ++ p ++ b))
            = rep ++ replaceAllFuel pat rep fuel ((a' ++ p ++ b).drop (pat.length - 1)) := by
          rw [show replaceAllFuel pat rep (fuel + 1) (c :: (a' ++ p ++ b))
              = if startsWith pat (c :: (a' ++ p ++ b)) then
                  rep ++ replaceAllFuel pat rep fuel ((a' ++ p ++ b).drop (pat.length - 1))
                else c :: replaceAllFuel pat rep fuel (a' ++ p ++ b) from rfl]
          rw [if_pos hm]
        rw [hstep]
        obtain ⟨t, htEq⟩ := (startsWith_iff pat _).1 hm
        by_cases hle : pat.length ≤ (c :: a').length
        · -- the match lies inside the prefix `a = c :: a'`
          have hdrop : ((c :: a') ++ p ++ b).drop pat.length
              = (c :: a').drop pat.length ++ p ++ b := by
            rw [List.append_assoc, List.drop_append_eq_append_drop,
              Nat.sub_eq_zero_of_le hle, List.drop_zero, List.append_assoc]
          have hlen2 : ((c :: a').drop pat.length ++ p ++ b).length ≤ fuel := by
            have h1 : ((c :: a') ++ p ++ b).length ≤ fuel + 1 := hlen
            have h2 := List.length_drop pat.length ((c :: a') ++ p ++ b)
            have h3 : 1 ≤ pat.length := by rw [hpat]; simp
            rw [hdrop] at h2
            simp only [List.length_append] at h2 h1 ⊢
            omega
          obtain ⟨x, y, hxy⟩ := replace_keeps_sub pat rep p ph pt hpat hph hover fuel
            ((c :: a').drop pat.length) b hlen2
          refine ⟨rep ++ x, y, ?_⟩
          have harg : ((c :: a') ++ p ++ b).drop (pat.length)
              = (a' ++ p ++ b).drop (pat.length - 1) := by
            have h3 : 1 ≤ pat.length := by rw [hpat]; simp
            rw [show ((c :: a') ++ p ++ b) = c :: (a' ++ p ++ b) by simp]
            rw [show pat.length = (pat.length - 1) + 1 by omega]
            rfl
          rw [← harg, hdrop, ← hxy]
          simp [List.append_assoc]
        · -- the match would straddle the occurrence of `p`: impossible
          exfalso
          push_neg at hle
          have hj1 : 1 ≤ (c :: a').length := by simp
          have heq2 : pat.drop (c :: a').length ++ t = p ++ b := by
            have h4 := congrArg (List.drop (c :: a').length) htEq
            rw [List.drop_append_eq_append_drop,
              Nat.sub_eq_zero_of_le (Nat.le_of_lt hle), List.drop_zero] at h4
            rw [h4]
            rw [show (c :: (a' ++ p ++ b)) = (c :: a') ++ (p ++ b) by simp]
            exact List.drop_left (c :: a') (p ++ b)
          rcases List.append_eq_append_iff.1 heq2 with ⟨a2, hpa, -⟩ | ⟨c2, hpc, -⟩
          · have : startsWith (pat.drop (c :: a').length) p = true :=
              (startsWith_iff _ _).2 ⟨a2, hpa.symm⟩
            rw [(hover (c :: a').length hle hj1).1] at this
            exact Bool.false_ne_true this
          · have : startsWith p (pat.drop (c :: a').length) = true :=
              (startsWith_iff _ _).2 ⟨c2, hpc.symm⟩
            rw [(hover (c :: a').length hle hj1).2] at this
            exact Bool.false_ne_true this
      · have hstep : replaceAllFuel pat rep (fuel + 1) (c :: (a' ++ p ++ b))
            = c :: replaceAllFuel pat rep fuel (a' ++ p ++ b) := by
          rw [show replaceAllFuel pat rep (fuel + 1) (c :: (a' ++ p ++ b))
              = if startsWith pat (c :: (a' ++ p ++ b)) then
                  rep ++ replaceAllFuel pat rep fuel ((a' ++ p ++ b).drop (pat.length - 1))
                else c :: replaceAllFuel pat rep fuel (a' ++ p ++ b) from rfl]
          rw [if_neg hm]
        rw [hstep]
        have hlen2 : (a' ++ p ++ b).length ≤ fuel := by
          simp only [List.cons_append, List.length_cons] at hlen
          simp only [List.length_append] at hlen ⊢
          omega
        obtain ⟨x, y, hxy⟩ := replace_keeps_sub pat rep p ph pt hpat hph hover fuel a' b hlen2
        exact ⟨c :: x, y, by rw [List.cons_append, List.cons_append, hxy]⟩

theorem contains_preserved (pat rep p : List Char) (ph : Char) (pt : List Char)
    (hpat : pat = ph :: pt) (hph : ph ∉ p)
    (hover : ∀ j, j < pat.length → 0 < j →
      startsWith (pat.drop j) p = false ∧ startsWith p (pat.drop j) = false)
    (s : List Char) (h : containsSubstr p s = true) :
    containsSubstr p (replaceAll pat rep s) = true := by
  obtain ⟨a, b, hab⟩ := (containsSubstr_iff p s).1 h
  rw [replaceAll, if_neg (by rw [hpat]; simp)]
  subst hab
  obtain ⟨x, y, hxy⟩ := replace_keeps_sub pat rep p ph pt hpat hph hover
    (a ++ p ++ b).length a b (le_refl _)
  exact (containsSubstr_iff p _).2 ⟨x, y, hxy⟩

/-! ## Claim C5 -/

/-- Claim C5, counterexample: the page text `&lt;noinclude&gt;{{x}}` does not
contain the raw substring `<noinclude>` (it has no `<` at all), yet
`clean_text` classifies it as a template, because the heuristic runs after
the `&lt;`/`&gt;` decoding. This refutes the only-if direction of the claim. -/
theorem C5_counterexample :
    detect_template "&lt;noinclude&gt;\x7b\x7bx\x7d\x7d".data = true ∧
    containsSubstr "<noinclude>".data "&lt;noinclude&gt;\x7b\x7bx\x7d\x7d".data = false := by
  refine ⟨?_, ?_⟩ <;> decide

/-- Claim C5, amended: the page is classified as a template if and only if
the entity-decoded text (after replacing `&lt;`/`&gt;`) contains all three of
`<noinclude>`, double open braces and double close braces; in particular the
raw-text condition stays sufficient, because the decoding never destroys an
occurrence of any of the three substrings. -/
theorem C5_amended :
    (∀ text, detect_template text =
      (containsSubstr "<noinclude>".data (decode_entities text) &&
       containsSubstr "\x7b\x7b".data (decode_entities text) &&
       containsSubstr "\x7d\x7d".data (decode_entities text))) ∧
    (∀ text, containsSubstr "<noinclude>".data text = true →
      containsSubstr "\x7b\x7b".data text = true →
      containsSubstr "\x7d\x7d".data text = true →
      detect_template text = true) := by
  constructor
  · intro text; rfl
  · intro text h1 h2 h3
    have d1 : containsSubstr "<noinclude>".data (decode_entities text) = true := by
      unfold decode_entities
      apply contains_preserved "&gt;".data ">".data _ '&' "gt;".data rfl
        (by decide) (by decide)
      exact contains_preserved "&lt;".data "<".data _ '&' "lt;".data rfl
        (by decide) (by decide) text h1
    have d2 : containsSubstr "\x7b\x7b".data (decode_entities text) = true := by
      unfold decode_entities
      apply contains_preserved "&gt;".data ">".data _ '&' "gt;".data rfl
        (by decide) (by decide)
      exact contains_preserved "&lt;".data "<".data _ '&' "lt;".data rfl
        (by decide) (by decide) text h2
    have d3 : containsSubstr "\x7d\x7d".data (decode_entities text) = true := by
      unfold decode_entities
      apply contains_preserved "&gt;".data ">".data _ '&' "gt;".data rfl
        (by decide) (by decide)
      exact contains_preserved "&lt;".data "<".data _ '&' "lt;".data rfl
        (by decide) (by decide) text h3
    unfold detect_template
    rw [d1, d2, d3]
    rfl

theorem C5_witness :
    detect_template "<noinclude>\x7b\x7bx\x7d\x7d".data = true :=
  C5_amended.2 "<noinclude>\x7b\x7bx\x7d\x7d".data (by decide) (by decide) (by decide)

/-! ## Pandoc URL workaround: `PandocFix.url_fix` (lines 62-64) and the
version gate of `clean_text` (lines 240-242) -/

/-- Embeds `PandocFix.url_fix`: three sequential literal replaces. -/
def url_fix (url : List Char) : List Char :=
  replaceAll ".&".data ".%20&".data
    (replaceAll "= ".data "=%20 ".data
      (replaceAll "=&".data "=%20&".data url))

/-- Scanner for the lazy regex tail `.+?\]` after `[http`: the earliest `]`
at index at least one, all skipped characters non-newline; returns the
characters the dot consumed and the rest after the `]`. -/
def findUrlEnd : List Char → Option (List Char × List Char)
  | [] => none
  | c :: rest =>
    if c = '\n' then none
    else
      match rest with
      | [] => none
      | d :: rest' =>
        if d = ']' then some ([c], rest')
        else
          match findUrlEnd rest with
          | some (m, r) => some (c :: m, r)
          | none => none

/-- Embeds `re.sub(r'\[(http.+?)\]', lambda m: pandoc_fix.url_fix(m.group(0)), text)`
(line 242): scan left to right, and at each `[http` whose lazy match closes,
replace the whole match with its `url_fix`; run with `fuel = text.length`. -/
def urlFixScan : Nat → List Char → List Char
  | 0, s => s
  | _ + 1, [] => []
  | fuel + 1, c :: rest =>
    if c = '[' ∧ startsWith "http".data rest = true then
      match findUrlEnd (rest.drop 4) with
      | some (m, r) =>
        url_fix ('[' :: ("http".data ++ m ++ [']'])) ++ urlFixScan fuel r
      | none => c :: urlFixScan fuel rest
    else c :: urlFixScan fuel rest

/-- The substitution over a whole text. -/
def urlFixAll (s : List Char) : List Char := urlFixScan s.length s

/-- Embeds the version gate (lines 240-242):
`if self.pandoc_version <= '2.0.2': text = re.sub(...)`. -/
def pandoc_url_fix_step (pandoc_version text : List Char) : List Char :=
  if strLe pandoc_version "2.0.2".data then urlFixAll text else text

/-- Claim C9: the URL workaround runs exactly when the queried version string
compares at or below `2.0.2` in Python string order; when it runs, every
bracketed `[http...]` match gets `=&`, `= ` and `.&` escaped inside it, and
when it does not run the text passes through this step unchanged. The third
conjunct checks a bracketed URL exercising all three replacements. -/
theorem C9_version_gate :
    (∀ version text, strLe version "2.0.2".data = true →
      pandoc_url_fix_step version text = urlFixAll text) ∧
    (∀ version text, strLe version "2.0.2".data = false →
      pandoc_url_fix_step version text = text) ∧
    urlFixAll "see [http://a.b?c=&d= e.&f] end".data
      = "see [http://a.b?c=%20&d=%20 e.%20&f] end".data := by
  refine ⟨?_, ?_, ?_⟩
  · intro v t h
    unfold pandoc_url_fix_step
    rw [h]
    rfl
  · intro v t h
    unfold pandoc_url_fix_step
    rw [h]
    rfl
  · decide

theorem C9_witness :
    pandoc_url_fix_step "2.0.2".data "[http://x?a=&b]".data
      = urlFixAll "[http://x?a=&b]".data ∧
    pandoc_url_fix_step "pandoc 3.1".data "abc".data = "abc".data :=
  ⟨C9_version_gate.1 "2.0.2".data "[http://x?a=&b]".data (by decide),
   C9_version_gate.2.1 "pandoc 3.1".data "abc".data (by decide)⟩

end MwConvert
